import Mathlib

/-!
Verification of the middleware-composition core of `github.com/lamlv2305/rok`
(`src/channel/middleware.go`): the `Middleware` predicate type, the
`WithMiddleware` functional option, and the evaluation contract consumed by
the owning component.
-/

namespace RokChannel

/-- Embedding of `type Middleware[T any] func(T) bool`
(src/channel/middleware.go, line 3): a predicate over the element type. -/
def Middleware (T : Type) : Type := T → Bool

/-- Modelled from the spec: the `options[T]` struct referenced by
`WithMiddleware` is not among the available source files.  Per the spec it
holds an ordered sequence of `Middleware` instances; all further
configuration attributes of the owning component are modelled abstractly as
a field `rest` of type `R`. -/
structure Options (T : Type) (R : Type) where
  middlewares : List (Middleware T)
  rest : R

/-- Embedding of `WithMiddleware` (src/channel/middleware.go, lines 5-11):
returns a function that, applied to an options value, appends each supplied
middleware in turn (in loop order) to the target's middleware sequence. -/
def WithMiddleware {T R : Type} (middlewares : List (Middleware T)) :
    Options T R → Options T R :=
  fun o =>
    middlewares.foldl (fun acc m => ⟨acc.middlewares ++ [m], acc.rest⟩) o

/-- Outcome of evaluating one value against the middleware sequence. -/
inductive EvalResult : Type
  | passed
  | rejected
deriving DecidableEq

/-- Modelled from the spec: the owning component that evaluates each value
against the stored middleware sequence is not among the available source
files.  Evaluation proceeds in registration order and short-circuits to
`rejected` at the first middleware returning `false`; an empty sequence
yields `passed`. -/
def evaluate {T : Type} : List (Middleware T) → T → EvalResult
  | [], _ => EvalResult.passed
  | m :: ms, v => if m v then evaluate ms v else EvalResult.rejected

/-- Modelled from the spec: the number of middleware invocations the
evaluator performs on a value, following the same short-circuit order as
`evaluate`. -/
def invokedCount {T : Type} : List (Middleware T) → T → Nat
  | [], _ => 0
  | m :: ms, v => if m v then invokedCount ms v + 1 else 1

/-- The fold inside `WithMiddleware` appends the whole batch at the end of
the existing middleware sequence. -/
theorem withMiddleware_middlewares {T R : Type}
    (ms : List (Middleware T)) (o : Options T R) :
    (WithMiddleware ms o).middlewares = o.middlewares ++ ms := by
  induction ms generalizing o with
  | nil => simp [WithMiddleware]
  | cons m rest ih =>
      show (WithMiddleware rest ⟨o.middlewares ++ [m], o.rest⟩).middlewares = _
      rw [ih]
      simp

/-- The fold inside `WithMiddleware` never touches the non-middleware
configuration state. -/
theorem withMiddleware_rest {T R : Type}
    (ms : List (Middleware T)) (o : Options T R) :
    (WithMiddleware ms o).rest = o.rest := by
  induction ms generalizing o with
  | nil => rfl
  | cons m rest ih =>
      show (WithMiddleware rest ⟨o.middlewares ++ [m], o.rest⟩).rest = _
      rw [ih]

/-- Example middleware over integers used by concrete witnesses. -/
def isEven : Middleware Int := fun n => n % 2 == 0

/-- Example middleware over integers used by concrete witnesses. -/
def isPositive : Middleware Int := fun n => decide (0 < n)

/-- An options value with the empty middleware sequence, used by witnesses. -/
def opts0 : Options Int Unit := ⟨[], ()⟩

/-- C1: evaluation returns `passed` iff every middleware accepts the value;
and whenever the sequence splits as `pre ++ m :: post` with every middleware
of `pre` accepting `v` and `m` rejecting it (so `m` is the first failure),
evaluation returns `rejected` and exactly `pre.length + 1` middlewares are
invoked — hence no middleware after the failing one is invoked. -/
theorem evaluate_passed_iff_and_shortCircuit {T : Type}
    (ms : List (Middleware T)) (v : T) :
    (evaluate ms v = EvalResult.passed ↔ ∀ m ∈ ms, m v = true) ∧
    (∀ pre (m : Middleware T) post, ms = pre ++ m :: post →
      (∀ p ∈ pre, p v = true) → m v = false →
      evaluate ms v = EvalResult.rejected ∧
      invokedCount ms v = pre.length + 1) := by
  constructor
  · induction ms with
    | nil => simp [evaluate]
    | cons m rest ih =>
        cases h : m v with
        | true => simp [evaluate, h, ih]
        | false => simp [evaluate, h]
  · intro pre m post hsplit hpre hm
    subst hsplit
    revert hpre
    induction pre with
    | nil =>
        intro _
        simp [evaluate, invokedCount, hm]
    | cons p rest ih =>
        intro hpre
        have hp : p v = true := hpre p (by simp)
        have ih2 := ih (fun q hq => hpre q (by simp [hq]))
        simp only [List.cons_append, evaluate, invokedCount, hp, if_true,
          List.length_cons]
        refine ⟨ih2.1, ?_⟩
        have h2 := ih2.2
        simp only [List.append_eq] at h2 ⊢
        omega

/-- C1 witness: with middlewares `[isEven, isPositive]` and value `-4`, the
first failure is `isPositive` after the passing front `[isEven]`, so
evaluation rejects and invokes exactly two middlewares. -/
theorem evaluate_passed_iff_and_shortCircuit_witness :
    evaluate [isEven, isPositive] (-4 : Int) = EvalResult.rejected ∧
    invokedCount [isEven, isPositive] (-4 : Int) = 2 :=
  (evaluate_passed_iff_and_shortCircuit [isEven, isPositive] (-4 : Int)).2
    [isEven] isPositive [] rfl
    (fun p hp => by
      have hpe : p = isEven := by simpa using hp
      subst hpe
      decide)
    (by decide)

/-- C2: the function returned by `WithMiddleware ms` appends exactly the
middlewares of `ms`, in the order they were passed, to the target options
instance's middleware sequence. -/
theorem withMiddleware_appends_batch {T R : Type}
    (ms : List (Middleware T)) (o : Options T R) :
    (WithMiddleware ms o).middlewares = o.middlewares ++ ms :=
  withMiddleware_middlewares ms o

/-- C3: applying `WithMiddleware [A, B]` then `WithMiddleware [C]` to an
initially empty options instance yields `[A, B, C]`; in general sequential
application concatenates the appended batches in application order. -/
theorem withMiddleware_concat (T R : Type) :
    (∀ (A B C : Middleware T) (o : Options T R), o.middlewares = [] →
        (WithMiddleware [C] (WithMiddleware [A, B] o)).middlewares
          = [A, B, C]) ∧
    (∀ (ms1 ms2 : List (Middleware T)) (o : Options T R),
        (WithMiddleware ms2 (WithMiddleware ms1 o)).middlewares
          = o.middlewares ++ (ms1 ++ ms2)) := by
  constructor
  · intro A B C o h
    simp [withMiddleware_middlewares, h]
  · intro ms1 ms2 o
    simp [withMiddleware_middlewares]

/-- C3 witness: appending the batches `[isEven, isEven]` then `[isPositive]`
to the empty options instance yields `[isEven, isEven, isPositive]`. -/
theorem withMiddleware_concat_witness :
    (WithMiddleware [isPositive]
        (WithMiddleware [isEven, isEven] opts0)).middlewares
      = [isEven, isEven, isPositive] :=
  (withMiddleware_concat Int Unit).1 isEven isEven isPositive opts0 rfl

/-- C4: an options instance with an empty middleware sequence accepts every
value — evaluation returns `passed`. -/
theorem evaluate_empty_passes {T R : Type} (o : Options T R) (v : T)
    (h : o.middlewares = []) :
    evaluate o.middlewares v = EvalResult.passed := by
  rw [h]
  rfl

/-- C4 witness: the empty options instance passes the value `0`. -/
theorem evaluate_empty_passes_witness :
    evaluate opts0.middlewares (0 : Int) = EvalResult.passed :=
  evaluate_empty_passes opts0 0 rfl

/-- C5: applying the function returned by `WithMiddleware` with zero
middlewares leaves the options instance unchanged. -/
theorem withMiddleware_nil_id {T R : Type} (o : Options T R) :
    WithMiddleware [] o = o :=
  rfl

/-- C6: registering a middleware `k` times appends exactly `k` copies of it
to the sequence (no de-duplication), and when the middleware accepts the
value the evaluator invokes it `k` times, once per position. -/
theorem withMiddleware_replicate_count {T R : Type}
    (m : Middleware T) (k : Nat) (o : Options T R) (v : T) :
    (WithMiddleware (List.replicate k m) o).middlewares
      = o.middlewares ++ List.replicate k m ∧
    (m v = true → invokedCount (List.replicate k m) v = k) := by
  refine ⟨withMiddleware_middlewares _ _, fun hm => ?_⟩
  induction k with
  | zero => rfl
  | succ n ih => simp [List.replicate_succ, invokedCount, hm, ih]

/-- C6 witness: `isEven` registered three times is invoked three times on
the accepted value `4`. -/
theorem withMiddleware_replicate_count_witness :
    invokedCount (List.replicate 3 isEven) (4 : Int) = 3 :=
  (withMiddleware_replicate_count isEven 3 opts0 (4 : Int)).2 (by decide)

/-- C7: configuration never fails — for every batch, including the empty
batch and batches with repeated middlewares, and every options instance,
`WithMiddleware` and the application of its returned function produce a
well-defined result with the batch appended; there is no error outcome. -/
theorem withMiddleware_total {T R : Type}
    (ms : List (Middleware T)) (o : Options T R) :
    ∃ res : Options T R, WithMiddleware ms o = res ∧
      res.middlewares = o.middlewares ++ ms ∧ res.rest = o.rest :=
  ⟨WithMiddleware ms o, rfl, withMiddleware_middlewares ms o,
    withMiddleware_rest ms o⟩

/-- C8: append-only invariant — the pre-existing middleware sequence is
preserved as the unchanged front segment of the resulting sequence, and the
elements after it are exactly the appended batch. -/
theorem withMiddleware_appendOnly {T R : Type}
    (ms : List (Middleware T)) (o : Options T R) :
    (WithMiddleware ms o).middlewares.take o.middlewares.length
        = o.middlewares ∧
    (WithMiddleware ms o).middlewares.drop o.middlewares.length = ms := by
  constructor <;> simp [withMiddleware_middlewares]

/-- C9: invoking the returned function changes only the middleware sequence
of the target options instance; every other configuration attribute,
modelled by the `rest` field, is left unchanged. -/
theorem withMiddleware_frame {T R : Type}
    (ms : List (Middleware T)) (o : Options T R) :
    (WithMiddleware ms o).rest = o.rest :=
  withMiddleware_rest ms o

/-- C10: the function returned by a single `WithMiddleware ms` call is
reusable — applying it `k` times to an options instance extends the
middleware sequence by exactly `k` copies of the batch `ms`, in order. -/
theorem withMiddleware_iterate {T R : Type}
    (ms : List (Middleware T)) (k : Nat) (o : Options T R) :
    ((WithMiddleware ms)^[k] o).middlewares
      = o.middlewares ++ (List.replicate k ms).flatten := by
  induction k generalizing o with
  | zero => simp
  | succ n ih =>
      rw [Function.iterate_succ_apply, ih, withMiddleware_middlewares,
        List.replicate_succ, List.flatten_cons, List.append_assoc]

end RokChannel
